import Mathlib

/-!
Verification of `rust-pram`, a tool that reads `/proc/<pid>/maps` and
`/proc/<pid>/pagemap` to build an index from physical page-frame numbers to
the set of processes owning each frame, and compresses that index into
contiguous ranges for reporting.

Modelling conventions:
* machine integers (`u64`) are modelled as `Nat`, with explicit `% 2 ^ 64`
  or side conditions where wrap-around could matter;
* a Rust `Process` is identified by its pid alone, because the Rust type
  defines `PartialEq`, `Ord` and `Hash` solely through `pid`; we therefore
  model a process as a `Nat`;
* `BTreeSet<Process>` becomes `Finset Nat`;
* a `BTreeMap<u64, V>` that the code only iterates over becomes a
  key-sorted association list `List (Nat × V)`, and one that the code uses
  as a finite map becomes a function `Nat → Option V`;
* fallible operations return `Option`.
-/

namespace Pram

/-! ### Page bitfield (src/src/proc/pagemap.rs, `bitfield!` block)

The `bitfield!` macro generates, for a single-bit boolean accessor at bit
`b`, the expression `(self.0 >> b) & 1 != 0`, and for the multi-bit
accessor `pub u64, page_frame_number, _: 54, 0` the expression
`(self.0 >> 0) & ((1 << (54 - 0 + 1)) - 1)`.  Note that `is_file_mapped`
and `is_shared_anonymous` are both declared at bit 61 in the source. -/

def in_ram (v : Nat) : Bool := (v >>> 63) &&& 1 != 0

def in_swap (v : Nat) : Bool := (v >>> 62) &&& 1 != 0

def is_file_mapped (v : Nat) : Bool := (v >>> 61) &&& 1 != 0

def is_shared_anonymous (v : Nat) : Bool := (v >>> 61) &&& 1 != 0

def is_exclusively_mapped (v : Nat) : Bool := (v >>> 56) &&& 1 != 0

def is_soft_dirty (v : Nat) : Bool := (v >>> 55) &&& 1 != 0

def page_frame_number (v : Nat) : Nat := (v >>> 0) &&& (2 ^ 55 - 1)

/-! ### Frame index (src/src/main.rs, `all_pages`)

`all_pages` maps every process to a page map
`BTreeMap<u64, BTreeSet<Process>>` (frame number to owning processes) and
reduces the per-process maps by key-wise set union.  We model the map as a
function `Nat → Option (Finset Nat)`: `none` for an absent key, `some s`
for a key bound to the owner set `s`. -/

abbrev FrameIndex : Type := Nat → Option (Finset Nat)

def emptyIdx : FrameIndex := fun _ => none

/-- One iteration of the inner loop body of `all_pages`:
`page_map.entry(pfn).or_insert_with(|| btreeset! {}).insert(proc)`. -/
def insertOwner (m : FrameIndex) (pfn : Nat) (p : Nat) : FrameIndex :=
  fun k => if k = pfn then some (((m pfn).getD ∅) ∪ {p}) else m k

/-- The body of the inner `for page in pages` loop of `all_pages`: skip a
page whose `in_ram` bit is unset, otherwise record
`(page_frame_number, proc)`. -/
def pageStep (proc : Nat) (m : FrameIndex) (page : Nat) : FrameIndex :=
  if in_ram page then insertOwner m (page_frame_number page) proc else m

/-- The body of the outer `for (map, pages) in maps` loop of `all_pages`:
run the inner loop over that map's pages. -/
def mapStep (proc : Nat) (m : FrameIndex) (mp : Nat × List Nat) : FrameIndex :=
  mp.2.foldl (pageStep proc) m

/-- The map phase of `all_pages` for one process: iterate over the maps
returned by `read_pages` (an association of each `Map` to its list of
`Page` records), skip pages whose `in_ram` bit is unset, and record
`(page_frame_number, proc)` for the rest.  A `Map` key is identified here
by its start address (`Nat`), which is how the Rust `Map` orders and
hashes. -/
def buildPageMap (proc : Nat) (maps : List (Nat × List Nat)) : FrameIndex :=
  maps.foldl (mapStep proc) emptyIdx

/-- The reduce closure of `all_pages`: fold the entries of `b` into `a`
with `a.entry(k).or_insert_with(BTreeSet::new); set.extend(v)`.  Keys only
in `a` keep their set, keys only in `b` are inserted, and a shared key gets
the union of the two sets. -/
def mergeIdx (a b : FrameIndex) : FrameIndex :=
  fun k =>
    match a k, b k with
    | none, none => none
    | some s, none => some s
    | none, some t => some t
    | some s, some t => some (s ∪ t)

/-- Apply `f` to every element, failing if any application fails
(`Option`-traversal). -/
def traverseOption (f : α → Option β) : List α → Option (List β)
  | [] => some []
  | a :: l =>
    match f a with
    | none => none
    | some b =>
      match traverseOption f l with
      | none => none
      | some bs => some (b :: bs)

/-- `all_pages`, with the I/O of `Process::read_pages` abstracted as a
function `readPages` from a pid to `some` pages-per-map association on
success and `none` on failure.  The source calls
`proc.read_pages().expect(...)`, so a single failing process panics and
aborts the whole computation; the panic is modelled by the whole function
returning `none` (the traversal fails if any element fails).  The rayon
`reduce` is modelled as a left fold of `mergeIdx` over the per-process
page maps starting from the identity `BTreeMap::new()`. -/
def all_pages (readPages : Nat → Option (List (Nat × List Nat)))
    (procs : List Nat) : Option FrameIndex :=
  (traverseOption (fun p => (readPages p).map (buildPageMap p)) procs).map
    (fun l => l.foldl mergeIdx emptyIdx)

/-! ### Range compression (src/src/main.rs, `compress`) -/

/-- Result key of `compress`.  The Rust fields `from` and `to` clash with
Lean keywords, so they are rendered `from_` and `to_`. -/
structure PageRange where
  from_ : Nat
  to_ : Nat
deriving DecidableEq, Repr

/-- Loop of `compress` over the entries of the input `BTreeMap` in
ascending key order, carrying the mutable locals `start` and `prev`
(both initialised to 0).  The emitted `(PageRange, owners)` pairs are
collected in order of insertion.  `addr - 1` is `Nat` truncated
subtraction; the branch containing it is only reachable for `addr ≥ 1`
when the input is sorted, because a leading key 0 is consumed by the
`start == 0` branch. -/
def compressGo : Nat → Nat → List (Nat × Finset Nat) → List (PageRange × Finset Nat)
  | _, _, [] => []
  | start, prev, (addr, pids) :: rest =>
    if start = 0 then
      compressGo addr addr rest
    else if prev = addr - 1 then
      compressGo start (prev + 1) rest
    else
      (⟨start, addr⟩, pids) :: compressGo 0 prev rest

/-- `compress`: scan the frame index in ascending frame-number order and
emit compressed ranges.  The input list models the `BTreeMap` iteration
(sorted, duplicate-free keys). -/
def compress (pages : List (Nat × Finset Nat)) : List (PageRange × Finset Nat) :=
  compressGo 0 0 pages

/-! ### Page offsets (src/src/proc/maps.rs, `PageOffsets` / `Map::page_offsets`) -/

/-- The `PageOffsets` iterator collected into a list: starting from
`start`, yield the current value and advance by 8 while it does not exceed
`end`.  The Rust iterator advances `self.start += 8` after yielding. -/
def collectOffsets (s e : Nat) : List Nat :=
  if s > e then [] else s :: collectOffsets (s + 8) e
termination_by e + 1 - s
decreasing_by omega

/-- `Map::page_offsets`, with the host page size (queried via `sysconf`)
passed as a parameter and `size_of::<u64>() = 8` inlined.  The `- 8` is
`Nat` truncated subtraction; in the Rust source it is `u64` subtraction,
which cannot underflow when `endA` is a positive multiple of the page
size. -/
def page_offsets (pageSize start endA : Nat) : List Nat :=
  collectOffsets (start / pageSize * 8) (endA / pageSize * 8 - 8)

/-! ### Mapping parser (src/src/proc/maps.rs, `MAP_RE` and `TryInto<Map>`)

The source matches each line against the anchored regex

`^(?P<from>[0-9a-f]+)-(?P<to>[0-9a-f]+)\s+(?P<permissions>....)\s+(?P<offset>[0-9a-f]+)\s+(?P<dev>..:..)\s+(?P<inode>[0-9]+)\s*(?:(?P<path>.+))?$`

and then converts the captures with `u64::from_str_radix` (base 16 for the
addresses and offset, base 10 for the inode).  Every repetition operator
in the regex applies to a single-character class, so greedy matching with
backtracking is modelled exactly: a repetition over class `p` tries the
maximal run first and gives characters back one at a time on failure of
the continuation (`greedyRep` below).  `\s` is modelled by its ASCII
subset (the inputs the program reads contain only spaces and tabs) and `.`
matches any character except `'\n'`, as in the default Rust regex mode. -/

def isHexDigitRe (c : Char) : Bool :=
  ('0' ≤ c && c ≤ '9') || ('a' ≤ c && c ≤ 'f')

def isDecDigitRe (c : Char) : Bool := '0' ≤ c && c ≤ '9'

def isWsRe (c : Char) : Bool :=
  c = ' ' || c = '\t' || c = '\n' || c = '\r' || c = Char.ofNat 11 || c = Char.ofNat 12

def isDotRe (c : Char) : Bool := c ≠ '\n'

/-- Greedy repetition with backtracking for a single-character class `p`
with minimum count `mn`: try consuming `j` characters for `j` from the
maximal run length down to `mn`, passing the consumed prefix and the rest
to the continuation, and return the first success. -/
def greedyRep (p : Char → Bool) (mn : Nat) (cs : List Char)
    (k : List Char → List Char → Option α) : Option α :=
  ((List.range' mn ((cs.takeWhile p).length + 1 - mn)).reverse).findSome?
    (fun j => k (cs.take j) (cs.drop j))

/-- The named captures of `MAP_RE`. -/
structure MapCaptures where
  fromS : List Char
  toS : List Char
  permissionsS : List Char
  offsetS : List Char
  devS : List Char
  inodeS : List Char
  pathS : Option (List Char)
deriving DecidableEq, Repr

/-- `MAP_RE.captures`, specialised to the fixed shape of the pattern.  The
fixed-width pieces `-`, `....` and `..:..` are matched positionally; the
optional trailing group `(?:(?P<path>.+))?$` succeeds with the whole
remainder when it is non-empty and newline-free, with no path when the
remainder is empty, and fails otherwise (forcing backtracking into the
earlier repetitions, exactly as the regex engine would). -/
def mapCaptures (cs : List Char) : Option MapCaptures :=
  greedyRep isHexDigitRe 1 cs (fun fromS r1 =>
    match r1 with
    | '-' :: r2 =>
      greedyRep isHexDigitRe 1 r2 (fun toS r3 =>
        greedyRep isWsRe 1 r3 (fun _ r4 =>
          match r4 with
          | p1 :: p2 :: p3 :: p4 :: r5 =>
            if isDotRe p1 && isDotRe p2 && isDotRe p3 && isDotRe p4 then
              greedyRep isWsRe 1 r5 (fun _ r6 =>
                greedyRep isHexDigitRe 1 r6 (fun offsetS r7 =>
                  greedyRep isWsRe 1 r7 (fun _ r8 =>
                    match r8 with
                    | d1 :: d2 :: colon :: d3 :: d4 :: r9 =>
                      if isDotRe d1 && isDotRe d2 && colon = ':' && isDotRe d3 && isDotRe d4 then
                        greedyRep isWsRe 1 r9 (fun _ r10 =>
                          greedyRep isDecDigitRe 1 r10 (fun inodeS r11 =>
                            greedyRep isWsRe 0 r11 (fun _ r12 =>
                              match r12 with
                              | [] =>
                                some ⟨fromS, toS, [p1, p2, p3, p4], offsetS,
                                  [d1, d2, colon, d3, d4], inodeS, none⟩
                              | _ =>
                                if r12.all isDotRe then
                                  some ⟨fromS, toS, [p1, p2, p3, p4], offsetS,
                                    [d1, d2, colon, d3, d4], inodeS, some r12⟩
                                else none)))
                      else none
                    | _ => none)))
            else none
          | _ => none))
    | _ => none)

def hexDigitVal (c : Char) : Nat :=
  if c ≤ '9' then c.toNat - '0'.toNat else c.toNat - 'a'.toNat + 10

def decDigitVal (c : Char) : Nat := c.toNat - '0'.toNat

/-- `u64::from_str_radix`, restricted to the digit alphabets the regex can
produce: fails on an empty string, an out-of-alphabet character, or a
value exceeding `u64::MAX`. -/
def fromStrRadix (radix : Nat) (digitOk : Char → Bool) (digitVal : Char → Nat)
    (s : List Char) : Option Nat :=
  if s ≠ [] ∧ s.all digitOk then
    let v := s.foldl (fun a c => radix * a + digitVal c) 0
    if v < 2 ^ 64 then some v else none
  else none

/-- The Rust `Range { start, end }` of a `Map` (`end` is a Lean keyword,
rendered `end_`). -/
structure MapsRange where
  start : Nat
  end_ : Nat
deriving DecidableEq, Repr

/-- The Rust `Map` struct; the interned `MiniSpur` string fields are
modelled as the strings they resolve to. -/
structure MapEntry where
  address_range : MapsRange
  permissions : String
  offset : Nat
  device : String
  inode : Nat
  path : Option String
deriving DecidableEq, Repr

/-- `TryInto<Map> for &str`: match the regex, then convert the captures.
Returns `none` where the source returns `Err`. -/
def tryIntoMap (cs : List Char) : Option MapEntry :=
  match mapCaptures cs with
  | none => none
  | some cap => do
    let f ← fromStrRadix 16 isHexDigitRe hexDigitVal cap.fromS
    let t ← fromStrRadix 16 isHexDigitRe hexDigitVal cap.toS
    let off ← fromStrRadix 16 isHexDigitRe hexDigitVal cap.offsetS
    let ino ← fromStrRadix 10 isDecDigitRe decDigitVal cap.inodeS
    some
      { address_range := ⟨f, t⟩
        permissions := String.mk cap.permissionsS
        offset := off
        device := String.mk cap.devS
        inode := ino
        path := cap.pathS.map String.mk }

/-! ### Concrete fixtures used by counterexamples and witnesses -/

/-- A `read_pages` oracle where pid 1 succeeds with one mapping holding a
single resident page (value `2 ^ 63 + 5`: `in_ram` set, frame number 5)
and every other pid fails. -/
def readPagesEx : Nat → Option (List (Nat × List Nat)) :=
  fun p => if p = 1 then some [(0, [2 ^ 63 + 5])] else none

/-! ## Theorems -/

/-- Helper: the `Option`-traversal fails exactly when some element
fails. -/
theorem traverseOption_eq_none_iff {α β : Type} (f : α → Option β) :
    ∀ l : List α, traverseOption f l = none ↔ ∃ a ∈ l, f a = none := by
  intro l
  induction l with
  | nil => simp [traverseOption]
  | cons a l ih =>
    cases h : f a with
    | none => simp [traverseOption, h]
    | some b =>
      cases hl : traverseOption f l with
      | none => simp [traverseOption, h, hl, ih.mp hl]
      | some bs =>
        simp only [traverseOption, h, hl, Option.bind_some]
        constructor
        · intro hnone
          simp at hnone
        · rintro ⟨x, hx, hfx⟩
          rcases List.mem_cons.mp hx with rfl | hx'
          · simp [hfx] at h
          · have := ih.mpr ⟨x, hx', hfx⟩
            simp [this] at hl

/-- Claim C1 (code bug): `compress` extends an open range whenever the next
frame number is contiguous, without comparing owner sets.  On the index
`{1 ↦ {1}, 2 ↦ {2}, 4 ↦ {9}}` it emits the single range `[1, 4)`, which
covers the numerically contiguous frames 1 and 2 even though their owner
sets `{1}` and `{2}` differ (and attributes the range to frame 4's
owners). -/
theorem compress_merges_differing_owner_sets :
    compress [(1, ({1} : Finset Nat)), (2, {2}), (4, {9})] =
      [(⟨1, 4⟩, ({9} : Finset Nat))] ∧ ({1} : Finset Nat) ≠ {2} := by
  decide

/-- Claim C2 (code bug): `compress` never closes the final open range.  On
the singleton index `{1 ↦ {7}}` it emits no range at all, so frame 1
appears in no output range and the output does not reach the greatest
frame number of the index. -/
theorem compress_drops_final_range :
    compress [(1, ({7} : Finset Nat))] = [] := by
  decide

/-- Claim C3, counterexample: with pid 1 succeeding (with a resident page)
and pid 2 failing, `all_pages` over both pids aborts the whole build
(returns `none`, modelling the `expect` panic) instead of scoping the
failure to pid 2. -/
theorem all_pages_global_abort_example :
    all_pages readPagesEx [1, 2] = none ∧
      readPagesEx 1 = some [(0, [2 ^ 63 + 5])] :=
  ⟨rfl, rfl⟩

/-- Claim C3, amended: a failure enumerating pages for any single process
aborts the whole multi-process build — `all_pages` yields no index exactly
when some process's `read_pages` fails. -/
theorem all_pages_aborts_iff_some_process_fails
    (readPages : Nat → Option (List (Nat × List Nat))) (procs : List Nat) :
    all_pages readPages procs = none ↔ ∃ p ∈ procs, readPages p = none := by
  simp [all_pages, Option.map_eq_none', traverseOption_eq_none_iff]

/-- Claim C5: decoding 0 gives all six flags false and frame number 0,
decoding 1 gives all six flags false and frame number 1, and the decoded
frame number of any value is its low 55 bits. -/
theorem page_decode_spec :
    (in_ram 0 = false ∧ in_swap 0 = false ∧ is_file_mapped 0 = false ∧
      is_shared_anonymous 0 = false ∧ is_exclusively_mapped 0 = false ∧
      is_soft_dirty 0 = false ∧ page_frame_number 0 = 0) ∧
    (in_ram 1 = false ∧ in_swap 1 = false ∧ is_file_mapped 1 = false ∧
      is_shared_anonymous 1 = false ∧ is_exclusively_mapped 1 = false ∧
      is_soft_dirty 1 = false ∧ page_frame_number 1 = 1) ∧
    ∀ v : Nat, page_frame_number v = v % 2 ^ 55 := by
  refine ⟨by decide, by decide, fun v => ?_⟩
  simp only [page_frame_number, Nat.shiftRight_zero]
  exact Nat.and_pow_two_sub_one_eq_mod v 55

/-- Claim C6: the reduce step of `all_pages` (key-wise union of owner
sets) is commutative and associative, so the merged `FrameIndex` is
independent of merge order. -/
theorem mergeIdx_comm_assoc :
    ∀ a b c : FrameIndex,
      mergeIdx a b = mergeIdx b a ∧
        mergeIdx (mergeIdx a b) c = mergeIdx a (mergeIdx b c) := by
  intro a b c
  constructor
  · funext k
    cases ha : a k <;> cases hb : b k <;>
      simp [mergeIdx, ha, hb, Finset.union_comm]
  · funext k
    cases ha : a k <;> cases hb : b k <;> cases hc : c k <;>
      simp [mergeIdx, ha, hb, hc, Finset.union_assoc]

/-- Claim C9, counterexample: on the record `2 ^ 61` (bit 61 set) the
decoder reports `is_file_mapped` and `is_shared_anonymous` both true, so
the two flags are not mutually exclusive. -/
theorem file_mapped_shared_anonymous_both_true :
    is_file_mapped (2 ^ 61) = true ∧ is_shared_anonymous (2 ^ 61) = true := by
  decide

/-- Claim C9, amended: `is_file_mapped` and `is_shared_anonymous` are
declared at the same bit position (61), so the decoder returns the same
value for both on every record — whenever bit 61 is set, both flags are
true together. -/
theorem file_mapped_eq_shared_anonymous :
    ∀ v : Nat, is_file_mapped v = is_shared_anonymous v ∧
      is_file_mapped v = Nat.testBit v 61 := by
  intro v
  refine ⟨rfl, ?_⟩
  simp [is_file_mapped, Nat.testBit, Nat.and_comm]

/-- Helper: every range emitted by the compression loop starts at a
nonzero frame number, because an emission only happens in the branch where
`start ≠ 0`. -/
theorem compressGo_from_ne_zero :
    ∀ (l : List (Nat × Finset Nat)) (start prev : Nat)
      (r : PageRange × Finset Nat), r ∈ compressGo start prev l →
      r.1.from_ ≠ 0 := by
  intro l
  induction l with
  | nil =>
    intro start prev r hr
    simp [compressGo] at hr
  | cons hd tl ih =>
    intro start prev r hr
    rcases hd with ⟨addr, pids⟩
    by_cases h0 : start = 0
    · rw [compressGo, if_pos h0] at hr
      exact ih addr addr r hr
    · by_cases h1 : prev = addr - 1
      · rw [compressGo, if_neg h0, if_pos h1] at hr
        exact ih start (prev + 1) r hr
      · rw [compressGo, if_neg h0, if_neg h1] at hr
        rcases List.mem_cons.mp hr with rfl | hr'
        · simpa using h0
        · exact ih 0 prev r hr'

/-- Helper: in a key-sorted list the head's key is below every later
key. -/
theorem chain'_lt_head :
    ∀ (tl : List (Nat × Finset Nat)) (hd : Nat × Finset Nat),
      List.Chain' (fun a b => a.1 < b.1) (hd :: tl) →
      ∀ x ∈ tl, hd.1 < x.1 := by
  intro tl
  induction tl with
  | nil => intro hd _ x hx; simp at hx
  | cons y tl ih =>
    intro hd h x hx
    have h1 : hd.1 < y.1 := (List.chain'_cons.mp h).1
    rcases List.mem_cons.mp hx with rfl | hx'
    · exact h1
    · exact Nat.lt_trans h1 (ih y (List.chain'_cons.mp h).2 x hx')

/-- Claim C10: `compress` uses frame number 0 as its "no open range"
sentinel.  For every key-sorted frame index, no emitted `PageRange` starts
at frame 0, and an input entry with frame number 0 contributes nothing:
the output equals the output on the index with the frame-0 entry
removed. -/
theorem compress_frame_zero_sentinel (pages : List (Nat × Finset Nat))
    (hs : List.Chain' (fun a b => a.1 < b.1) pages) :
    (∀ r ∈ compress pages, r.1.from_ ≠ 0) ∧
      compress pages = compress (pages.filter (fun e => e.1 != 0)) := by
  refine ⟨fun r hr => compressGo_from_ne_zero pages 0 0 r hr, ?_⟩
  cases pages with
  | nil => rfl
  | cons hd tl =>
    rcases hd with ⟨a, s⟩
    have hlt : ∀ x ∈ tl, a < x.1 := chain'_lt_head tl (a, s) hs
    by_cases h0 : a = 0
    · subst h0
      have hfil : tl.filter (fun e => e.1 != 0) = tl :=
        List.filter_eq_self.mpr fun x hx => by
          simpa using (Nat.ne_of_gt (hlt x hx))
      show compressGo 0 0 ((0, s) :: tl) = compress (((0, s) :: tl).filter _)
      rw [compressGo, if_pos rfl]
      simp [compress, hfil]
    · have hfil : ((a, s) :: tl).filter (fun e => e.1 != 0) = (a, s) :: tl :=
        List.filter_eq_self.mpr fun x hx => by
          rcases List.mem_cons.mp hx with rfl | hx'
          · simpa using h0
          · simpa using Nat.ne_of_gt (Nat.lt_trans (Nat.pos_of_ne_zero h0) (hlt x hx'))
      rw [hfil]

/-- Claim C10, witness: the sentinel property instantiated on a concrete
sorted index containing a frame-0 entry. -/
theorem compress_frame_zero_sentinel_witness :
    (∀ r ∈ compress [(0, ({1} : Finset Nat)), (3, {2}), (4, {2}), (7, {5})],
      r.1.from_ ≠ 0) ∧
      compress [(0, ({1} : Finset Nat)), (3, {2}), (4, {2}), (7, {5})] =
        compress ([(0, ({1} : Finset Nat)), (3, {2}), (4, {2}),
          (7, {5})].filter (fun e => e.1 != 0)) :=
  compress_frame_zero_sentinel
    [(0, ({1} : Finset Nat)), (3, {2}), (4, {2}), (7, {5})]
    (by norm_num [List.chain'_cons])

/-- Helper: unfolding `collectOffsets` past its guard. -/
theorem collectOffsets_stop {s e : Nat} (h : s > e) : collectOffsets s e = [] := by
  rw [collectOffsets.eq_def, if_pos h]

/-- Helper: unfolding `collectOffsets` when the guard admits the current
value. -/
theorem collectOffsets_step {s e : Nat} (h : ¬s > e) :
    collectOffsets s e = s :: collectOffsets (s + 8) e := by
  rw [collectOffsets.eq_def, if_neg h]

/-- Helper: the collected iterator output in closed form, for an end point
reachable from the start in steps of 8. -/
theorem collectOffsets_range :
    ∀ (k s : Nat),
      collectOffsets s (s + 8 * k) = (List.range (k + 1)).map (fun i => s + 8 * i) := by
  intro k
  induction k with
  | zero =>
    intro s
    rw [collectOffsets_step (by omega), collectOffsets_stop (by omega)]
    rw [List.range_succ_eq_map]
    simp
  | succ k ih =>
    intro s
    rw [collectOffsets_step (by omega)]
    have he : s + 8 * (k + 1) = s + 8 + 8 * k := by ring
    rw [he, ih (s + 8)]
    conv_rhs => rw [List.range_succ_eq_map, List.map_cons, List.map_map]
    have hf : ((fun i => s + 8 * i) ∘ Nat.succ) = fun i => s + 8 + 8 * i := by
      funext i
      simp [Function.comp]
      ring
    rw [hf]
    simp

/-- Claim C4: for every mapping with page-aligned `start < end` the
page-offset sequence steps by exactly 8 (hence is strictly increasing),
begins at `(start / page_size) * 8` and ends at
`(end / page_size) * 8 - 8`; and the mapping `[0, 0x2000)` at page size
4096 produces exactly `[0, 8]`. -/
theorem page_offsets_spec (pageSize start endA : Nat)
    (hps : 0 < pageSize) (hs : pageSize ∣ start) (he : pageSize ∣ endA)
    (hlt : start < endA) :
    List.Chain' (fun a b => b = a + 8) (page_offsets pageSize start endA) ∧
      List.Chain' (· < ·) (page_offsets pageSize start endA) ∧
      (page_offsets pageSize start endA).head? = some (start / pageSize * 8) ∧
      (page_offsets pageSize start endA).getLast? =
        some (endA / pageSize * 8 - 8) ∧
      page_offsets 4096 0 0x2000 = [0, 8] := by
  obtain ⟨a, rfl⟩ := hs
  obtain ⟨b, rfl⟩ := he
  have hab : a < b := Nat.lt_of_mul_lt_mul_left hlt
  have hdiva : pageSize * a / pageSize = a := Nat.mul_div_cancel_left a hps
  have hdivb : pageSize * b / pageSize = b := Nat.mul_div_cancel_left b hps
  have hkey : page_offsets pageSize (pageSize * a) (pageSize * b) =
      (List.range (b - a)).map (fun i => a * 8 + 8 * i) := by
    unfold page_offsets
    rw [hdiva, hdivb]
    have h1 : b * 8 - 8 = a * 8 + 8 * (b - 1 - a) := by omega
    rw [h1, collectOffsets_range]
    have h2 : b - 1 - a + 1 = b - a := by omega
    rw [h2]
  have hconcrete : page_offsets 4096 0 0x2000 = [0, 8] := by
    have h1 : (0x2000 : Nat) / 4096 * 8 - 8 = 8 := by norm_num
    have h2 : (0 : Nat) / 4096 * 8 = 0 := by norm_num
    unfold page_offsets
    rw [h1, h2, collectOffsets_step (by omega), collectOffsets_step (by omega),
      collectOffsets_stop (by omega)]
  obtain ⟨n, hn⟩ : ∃ n, b - a = n + 1 := ⟨b - a - 1, by omega⟩
  refine ⟨?_, ?_, ?_, ?_, hconcrete⟩
  · rw [hkey, List.chain'_map, hn, List.chain'_range_succ]
    intro m _
    omega
  · rw [hkey, List.chain'_map, hn, List.chain'_range_succ]
    intro m _
    omega
  · rw [hkey, List.head?_map, List.head?_range, hdiva, hn]
    simp
  · rw [hkey, hn, List.range_succ, List.map_append, hdivb]
    simp only [List.map_cons, List.map_nil, List.getLast?_concat]
    have : a * 8 + 8 * n = b * 8 - 8 := by omega
    rw [this]

/-- Claim C4, witness: the specification applied to the mapping
`[0, 0x2000)` with page size 4096. -/
theorem page_offsets_spec_witness :
    List.Chain' (fun a b => b = a + 8) (page_offsets 4096 0 0x2000) ∧
      List.Chain' (· < ·) (page_offsets 4096 0 0x2000) ∧
      (page_offsets 4096 0 0x2000).head? = some (0 / 4096 * 8) ∧
      (page_offsets 4096 0 0x2000).getLast? = some (0x2000 / 4096 * 8 - 8) ∧
      page_offsets 4096 0 0x2000 = [0, 8] :=
  page_offsets_spec 4096 0 0x2000 (by norm_num) (by norm_num) (by norm_num)
    (by norm_num)

/-- Claim C7: the literal `/proc/<pid>/maps` line from the spec parses to
the expected `Map` value, and a line with the path field absent (an
anonymous mapping) is accepted, with `path = none`. -/
theorem tryIntoMap_literal_lines :
    tryIntoMap "00200000-00225000 r--p 00000000 00:12 281474977421407   /init".toList =
      some ⟨⟨0x200000, 0x225000⟩, "r--p", 0, "00:12", 281474977421407,
        some "/init"⟩ ∧
      tryIntoMap "7f0000000000-7f0000001000 rw-p 00000000 00:00 0".toList =
        some ⟨⟨0x7f0000000000, 0x7f0000001000⟩, "rw-p", 0, "00:00", 0, none⟩ := by
  constructor <;> rfl

/-- Helper: the inner page loop ignores pages whose `in_ram` flag is
unset. -/
theorem foldl_pageStep_filter (proc : Nat) :
    ∀ (l : List Nat) (m : FrameIndex),
      l.foldl (pageStep proc) m = (l.filter in_ram).foldl (pageStep proc) m := by
  intro l
  induction l with
  | nil => intro m; rfl
  | cons pg l ih =>
    intro m
    cases h : in_ram pg with
    | true => simp [List.filter_cons, h, List.foldl_cons, ih]
    | false =>
      simp only [List.filter_cons, h, List.foldl_cons, if_neg]
      rw [show pageStep proc m pg = m by simp [pageStep, h]]
      exact ih m

/-- Helper: the outer map loop ignores pages whose `in_ram` flag is
unset. -/
theorem foldl_mapStep_filter (proc : Nat) :
    ∀ (maps : List (Nat × List Nat)) (m : FrameIndex),
      maps.foldl (mapStep proc) m =
        (maps.map (fun mp => (mp.1, mp.2.filter in_ram))).foldl (mapStep proc) m := by
  intro maps
  induction maps with
  | nil => intro m; rfl
  | cons mp maps ih =>
    intro m
    simp only [List.map_cons, List.foldl_cons]
    rw [show mapStep proc m (mp.1, mp.2.filter in_ram) = mapStep proc m mp by
      simp [mapStep, (foldl_pageStep_filter proc mp.2 m).symm]]
    exact ih _

/-- Helper: a key bound by the inner page loop either was already bound or
comes from a resident page of the list. -/
theorem foldl_pageStep_key (proc : Nat) :
    ∀ (l : List Nat) (m : FrameIndex) (k : Nat),
      ((l.foldl (pageStep proc) m) k).isSome = true →
      (m k).isSome = true ∨ ∃ pg ∈ l, in_ram pg = true ∧ page_frame_number pg = k := by
  intro l
  induction l with
  | nil => intro m k h; exact Or.inl h
  | cons pg l ih =>
    intro m k h
    rw [List.foldl_cons] at h
    rcases ih (pageStep proc m pg) k h with h' | ⟨pg', hpg', hram, hpfn⟩
    · by_cases hr : in_ram pg = true
      · rw [pageStep, if_pos hr] at h'
        by_cases hk : k = page_frame_number pg
        · exact Or.inr ⟨pg, List.mem_cons_self pg l, hr, hk.symm⟩
        · rw [insertOwner, if_neg hk] at h'
          exact Or.inl h'
      · rw [pageStep, if_neg hr] at h'
        exact Or.inl h'
    · exact Or.inr ⟨pg', List.mem_cons_of_mem pg hpg', hram, hpfn⟩

/-- Helper: a key bound by the outer map loop either was already bound or
comes from a resident page of one of the maps. -/
theorem foldl_mapStep_key (proc : Nat) :
    ∀ (maps : List (Nat × List Nat)) (m : FrameIndex) (k : Nat),
      ((maps.foldl (mapStep proc) m) k).isSome = true →
      (m k).isSome = true ∨
        ∃ mp ∈ maps, ∃ pg ∈ mp.2, in_ram pg = true ∧ page_frame_number pg = k := by
  intro maps
  induction maps with
  | nil => intro m k h; exact Or.inl h
  | cons mp maps ih =>
    intro m k h
    rw [List.foldl_cons] at h
    rcases ih (mapStep proc m mp) k h with h' | ⟨mp', hmp', rest⟩
    · rcases foldl_pageStep_key proc mp.2 m k h' with h'' | ⟨pg, hpg, hram, hpfn⟩
      · exact Or.inl h''
      · exact Or.inr ⟨mp, List.mem_cons_self mp maps, pg, hpg, hram, hpfn⟩
    · exact Or.inr ⟨mp', List.mem_cons_of_mem mp hmp', rest⟩

/-- Helper: a merge of two indices binds a key exactly when one side
does. -/
theorem mergeIdx_isSome (a b : FrameIndex) (k : Nat) :
    ((mergeIdx a b) k).isSome = true ↔
      (a k).isSome = true ∨ (b k).isSome = true := by
  cases ha : a k <;> cases hb : b k <;> simp [mergeIdx, ha, hb]

/-- Helper: the reduce fold binds a key exactly when the initial index or
one of the folded indices does. -/
theorem foldl_mergeIdx_isSome :
    ∀ (l : List FrameIndex) (init : FrameIndex) (k : Nat),
      ((l.foldl mergeIdx init) k).isSome = true ↔
        (init k).isSome = true ∨ ∃ m ∈ l, (m k).isSome = true := by
  intro l
  induction l with
  | nil => intro init k; simp
  | cons a l ih =>
    intro init k
    rw [List.foldl_cons, ih (mergeIdx init a) k, mergeIdx_isSome]
    constructor
    · rintro (⟨h | h⟩ | ⟨m, hm, h⟩)
      · exact Or.inl h
      · exact Or.inr ⟨a, List.mem_cons_self a l, h⟩
      · exact Or.inr ⟨m, List.mem_cons_of_mem a hm, h⟩
    · rintro (h | ⟨m, hm, h⟩)
      · exact Or.inl (Or.inl h)
      · rcases List.mem_cons.mp hm with rfl | hm'
        · exact Or.inl (Or.inr h)
        · exact Or.inr ⟨m, hm', h⟩

/-- Helper: every element produced by a successful traversal comes from
applying the function to some input element. -/
theorem traverseOption_mem {α β : Type} (f : α → Option β) :
    ∀ (l : List α) (bs : List β), traverseOption f l = some bs →
      ∀ b ∈ bs, ∃ a ∈ l, f a = some b := by
  intro l
  induction l with
  | nil =>
    intro bs h b hb
    rw [traverseOption] at h
    injection h with h'
    subst h'
    exact absurd hb (List.not_mem_nil b)
  | cons a l ih =>
    intro bs h b hb
    cases ha : f a with
    | none => simp [traverseOption, ha] at h
    | some b0 =>
      cases hl : traverseOption f l with
      | none => simp [traverseOption, ha, hl] at h
      | some bs' =>
        simp only [traverseOption, ha, hl] at h
        cases h
        rcases List.mem_cons.mp hb with rfl | hb'
        · exact ⟨a, List.mem_cons_self a l, ha⟩
        · rcases ih bs' hl b hb' with ⟨a', ha', hfa'⟩
          exact ⟨a', List.mem_cons_of_mem a ha', hfa'⟩

/-- Claim C8: `all_pages` inserts a `(page_frame_number, process)` pair
only for resident pages: any key bound in a successfully built index comes
from a resident page of some scanned process, and filtering the
non-resident pages out of every process's input leaves the built index
unchanged. -/
theorem all_pages_resident_only
    (readPages : Nat → Option (List (Nat × List Nat))) (procs : List Nat)
    (idx : FrameIndex) (k : Nat)
    (hidx : all_pages readPages procs = some idx)
    (hk : (idx k).isSome = true) :
    (∃ p ∈ procs, ∃ maps, readPages p = some maps ∧
        ∃ mp ∈ maps, ∃ pg ∈ mp.2, in_ram pg = true ∧ page_frame_number pg = k) ∧
      all_pages readPages procs =
        all_pages (fun p => (readPages p).map
          (List.map (fun mp => (mp.1, mp.2.filter in_ram)))) procs := by
  constructor
  · rw [all_pages] at hidx
    cases ht : traverseOption (fun p => (readPages p).map (buildPageMap p)) procs with
    | none => rw [ht] at hidx; cases hidx
    | some l =>
      rw [ht] at hidx
      simp only [Option.map_some'] at hidx
      cases hidx
      rcases (foldl_mergeIdx_isSome l emptyIdx k).mp hk with h | ⟨m, hm, hmk⟩
      · cases h
      · rcases traverseOption_mem _ procs l ht m hm with ⟨p, hp, hfp⟩
        cases hrp : readPages p with
        | none => rw [hrp] at hfp; cases hfp
        | some maps =>
          rw [hrp] at hfp
          simp only [Option.map_some'] at hfp
          cases hfp
          rcases foldl_mapStep_key p maps emptyIdx k hmk with h | ⟨mp, hmp, pg, hpg, hram, hpfn⟩
          · cases h
          · exact ⟨p, hp, maps, hrp, mp, hmp, pg, hpg, hram, hpfn⟩
  · rw [all_pages, all_pages]
    have hfun : (fun p => ((readPages p).map
        (List.map (fun mp => (mp.1, mp.2.filter in_ram)))).map (buildPageMap p)) =
        (fun p => (readPages p).map (buildPageMap p)) := by
      funext p
      cases hrp : readPages p with
      | none => rfl
      | some maps =>
        simp only [Option.map_some']
        rw [buildPageMap, buildPageMap, foldl_mapStep_filter p maps emptyIdx]
    rw [hfun]

/-- A `read_pages` oracle used by the witness of `all_pages_resident_only`:
one mapping with one resident page (frame 5) and one non-resident page. -/
def readPagesW : Nat → Option (List (Nat × List Nat)) :=
  fun _ => some [(0, [2 ^ 63 + 5, 3])]

/-- Claim C8, witness: the residency property instantiated on a concrete
one-process build whose index binds frame 5. -/
theorem all_pages_resident_only_witness :
    (∃ p ∈ [1], ∃ maps, readPagesW p = some maps ∧
        ∃ mp ∈ maps, ∃ pg ∈ mp.2, in_ram pg = true ∧ page_frame_number pg = 5) ∧
      all_pages readPagesW [1] =
        all_pages (fun p => (readPagesW p).map
          (List.map (fun mp => (mp.1, mp.2.filter in_ram)))) [1] :=
  all_pages_resident_only readPagesW [1]
    (List.foldl mergeIdx emptyIdx [buildPageMap 1 [(0, [2 ^ 63 + 5, 3])]]) 5
    rfl (by decide)

end Pram
